import Mathlib

/-!
Verification of the permission-evaluation core of `vue-nuxt-permissions`
(`src/core/evaluator.ts`, `src/core/cache.ts`, `src/utils/helpers.ts`).

The TypeScript sources are shallowly embedded: JSON-like runtime values
become an inductive type, the JavaScript `Map` (which iterates in insertion
order) becomes an association list in insertion order, timestamps become
naturals, and the host regular-expression engine becomes an abstract
compilation function `String → Option (String → Bool)` (compilation either
fails, modelling a thrown `SyntaxError`, or yields a total matcher).
-/

namespace VNP

/-! ## JSON-like values (arguments of `stableStringify`, src/utils/helpers.ts) -/

inductive JLike where
  | jnull : JLike
  | jbool (b : Bool) : JLike
  | jnum (n : Int) : JLike
  | jstr (s : String) : JLike
  | jarr (xs : List JLike) : JLike
  | jobj (fields : List (String × JLike)) : JLike

/-- Lexicographic comparison of character lists, the order in which
`Array.prototype.sort()` with the default comparator places the keys of an
object (code-unit order; on the key strings that occur here it coincides
with code-point order). -/
def lexLeChars : List Char → List Char → Bool
  | [], _ => true
  | _ :: _, [] => false
  | a :: as, b :: bs =>
    if a < b then true
    else if b < a then false
    else lexLeChars as bs

/-- Key order on already-rendered object fields `(key, rendered)`. -/
def keyLe (p q : String × String) : Bool :=
  lexLeChars p.1.data q.1.data

/-- Stable insertion of a rendered field into a key-sorted list. -/
def insertField (p : String × String) : List (String × String) → List (String × String)
  | [] => [p]
  | q :: qs => if keyLe p q then p :: q :: qs else q :: insertField p qs

/-- Stable sort of rendered fields by key, modelling
`Object.keys(v).sort()` in `stableStringify`. -/
def sortFields : List (String × String) → List (String × String)
  | [] => []
  | p :: ps => insertField p (sortFields ps)

def hexDigit (n : Nat) : Char :=
  if n < 10 then Char.ofNat (48 + n) else Char.ofNat (87 + n)

/-- The escaping `JSON.stringify` applies inside a quoted string. -/
def escChar (c : Char) : String :=
  if c = '"' then "\\\""
  else if c = '\\' then "\\\\"
  else if c = '\n' then "\\n"
  else if c = '\r' then "\\r"
  else if c = '\t' then "\\t"
  else if c = Char.ofNat 8 then "\\b"
  else if c = Char.ofNat 12 then "\\f"
  else if c.toNat < 32 then "\\u00" ++ String.mk [hexDigit (c.toNat / 16), hexDigit (c.toNat % 16)]
  else String.singleton c

def jquote (s : String) : String :=
  "\"" ++ String.join (s.data.map escChar) ++ "\""

mutual

/-- Definition `stableStringify` from src/utils/helpers.ts: `JSON.stringify` with a
replacer that returns each object with its keys sorted, so object-key
insertion order does not influence the output.  (The replacer's `WeakSet`
guard only fires on shared/cyclic references, which tree-shaped values —
the only values an inductive type represents — never are.) -/
def stableStringify : JLike → String
  | .jnull => "null"
  | .jbool b => if b then "true" else "false"
  | .jnum n => toString n
  | .jstr s => jquote s
  | .jarr xs => "[" ++ String.intercalate "," (ssList xs) ++ "]"
  | .jobj fs =>
    "\x7b" ++ String.intercalate "," ((sortFields (ssFields fs)).map (fun p => p.2)) ++ "\x7d"

/-- Serialization of the elements of an array, in array order. -/
def ssList : List JLike → List String
  | [] => []
  | x :: xs => stableStringify x :: ssList xs

/-- Rendering of the fields of an object: each field keeps its key and is
rendered as `"key":value`; `sortFields` then orders the rendered fields by
key exactly as the source orders the keys before serializing. -/
def ssFields : List (String × JLike) → List (String × String)
  | [] => []
  | (k, v) :: fs => (k, jquote k ++ ":" ++ stableStringify v) :: ssFields fs

end

/-! ## Runtime permission values (`PermissionValue` plus the structurally
invalid shapes the evaluator guards against: `null`, `undefined`, numbers,
and objects with missing or mis-typed fields) -/

/-- Possible runtime value of a field of a structured rule: the field can be
missing from the object, or hold a string, a number, or an array of
strings. -/
inductive JField where
  | absent : JField
  | fstr (s : String) : JField
  | fnum (n : Int) : JField
  | flist (l : List String) : JField
deriving DecidableEq

/-- Runtime value passed to the evaluators as `permissionValue`. -/
inductive PValue where
  | pstr (s : String) : PValue
  | parr (ps : List String) : PValue
  | pobj (permissions : JField) (mode : JField) : PValue
  | pnull : PValue
  | pundefined : PValue
  | pnum (n : Int) : PValue
deriving DecidableEq

/-- Definition `isPermissionObject` from src/utils/helpers.ts: a non-null, non-array
object value that has both a `permissions` and a `mode` property. -/
def isPermissionObject : PValue → Bool
  | .pobj permissions mode => permissions ≠ JField.absent && mode ≠ JField.absent
  | _ => false

/-! ## The evaluator (src/core/evaluator.ts) -/

/-- Abstract host regular-expression engine: `new RegExp p` either throws
(`none`) or deterministically yields a compiled regex, abstracted as its
total `test` matcher. -/
def RegexEng : Type := String → Option (String → Bool)

/-- Definition `VALID_MODES` from src/core/evaluator.ts. -/
def VALID_MODES : List String := ["and", "or", "not", "startWith", "endWith", "regex"]

/-- Definition `validateRegexPattern`: try to compile the pattern (and run it on the
empty string, which cannot throw once compilation succeeded); `true` iff
nothing threw. -/
def validateRegexPattern (eng : RegexEng) (pattern : String) : Bool :=
  (eng pattern).isSome

/-- Embedding of `u.startsWith p`, on the character lists of the strings. -/
def leadMatch : List Char → List Char → Bool
  | [], _ => true
  | _ :: _, [] => false
  | a :: as, b :: bs => a = b && leadMatch as bs

/-- Embedding of `u.endsWith p`, as a suffix match on character lists. -/
def tailMatch (p u : List Char) : Bool :=
  leadMatch p.reverse u.reverse

/-- Definition `checkPermissionSync` from src/core/evaluator.ts (lines 39–95).
`current` is the resolved held-permission list (the source's
`userPermissions ?? getCurrentPermissions()`); the claims quantify over it
directly.  The function touches no cache. -/
def checkPermissionSync (eng : RegexEng) (permissionValue : PValue)
    (current : List String) : Bool :=
  if permissionValue = .pstr "*" then true
  else
    match permissionValue with
    | .pstr s => current.contains s
    | .parr ps =>
      if ps.contains "*" then true
      else ps.any (fun v => current.contains v)
    | .pobj permissions mode =>
      if isPermissionObject (.pobj permissions mode) then
        if !(match mode with
             | .fstr m => VALID_MODES.contains m
             | _ => false) then false
        else
          match permissions with
          | .flist ps =>
            if ps = [] then false
            else if ps.contains "*" then true
            else
              match mode with
              | .fstr m =>
                if m = "and" then ps.all (fun p => current.contains p)
                else if m = "or" then ps.any (fun p => current.contains p)
                else if m = "not" then !(ps.any (fun p => current.contains p))
                else if m = "startWith" then
                  ps.any (fun p => current.any (fun u => leadMatch p.data u.data))
                else if m = "endWith" then
                  ps.any (fun p => current.any (fun u => tailMatch p.data u.data))
                else if m = "regex" then
                  ps.any (fun p =>
                    if !validateRegexPattern eng p then false
                    else
                      match eng p with
                      | some r => current.any (fun u => r u)
                      | none => false)
                else false
              | _ => false
          | _ => false
      else false
    | _ => false

/-- The inner `evaluate` closure of `hasPermission` (src/core/evaluator.ts
lines 110–165).  The source duplicates the decision logic of
`checkPermissionSync` (plus dev-mode logging, which is observability only
and never affects the verdict); the duplicate is embedded separately so
that the agreement of the two copies is a theorem, not a modelling
assumption. -/
def hasPermissionEvaluate (eng : RegexEng) (value : PValue)
    (current : List String) : Bool :=
  if value = .pstr "*" then true
  else
    match value with
    | .pstr s => current.contains s
    | .parr ps =>
      if ps.contains "*" then true
      else ps.any (fun v => current.contains v)
    | .pobj permissions mode =>
      if isPermissionObject (.pobj permissions mode) then
        if !(match mode with
             | .fstr m => VALID_MODES.contains m
             | _ => false) then false
        else
          match permissions with
          | .flist ps =>
            if ps = [] then false
            else if ps.contains "*" then true
            else
              match mode with
              | .fstr m =>
                if m = "and" then ps.all (fun p => current.contains p)
                else if m = "or" then ps.any (fun p => current.contains p)
                else if m = "not" then !(ps.any (fun p => current.contains p))
                else if m = "startWith" then
                  ps.any (fun p => current.any (fun u => leadMatch p.data u.data))
                else if m = "endWith" then
                  ps.any (fun p => current.any (fun u => tailMatch p.data u.data))
                else if m = "regex" then
                  ps.any (fun p =>
                    if !validateRegexPattern eng p then false
                    else
                      match eng p with
                      | some r => current.any (fun u => r u)
                      | none => false)
                else false
              | _ => false
          | _ => false
      else false
    | _ => false

/-! ## The cache (src/core/cache.ts)

`permissionCache` is a JavaScript `Map<string, {value, timestamp}>`.  A
`Map` iterates in key-insertion order and `set` on an existing key keeps
the key's position, so the map is embedded as an association list in
insertion order (oldest entry first).  `Date.now()` timestamps are
naturals; `now - timestamp > TTL` with truncated subtraction agrees with
the JavaScript comparison for every `now` (when `now < timestamp` both
sides judge the entry unexpired, since the TTL is nonnegative). -/

structure CacheEntry where
  value : Bool
  timestamp : Nat
deriving DecidableEq

abbrev Cache : Type := List (String × CacheEntry)

def CACHE_MAX_SIZE : Nat := 1000

def CACHE_TTL : Nat := 5 * 60 * 1000

/-- Embedding of `Map.prototype.get`: the entry stored under the key, if any. -/
def mapGet : Cache → String → Option CacheEntry
  | [], _ => none
  | p :: ps, k => if p.1 = k then some p.2 else mapGet ps k

/-- Embedding of `Map.prototype.delete`: remove the entry stored under the key, keeping
the order of the others. -/
def mapDelete : Cache → String → Cache
  | [], _ => []
  | p :: ps, k => if p.1 = k then ps else p :: mapDelete ps k

/-- Embedding of `Map.prototype.set`: update in place when the key is present (the key
keeps its insertion position), otherwise append as the newest entry. -/
def mapSet : Cache → String → CacheEntry → Cache
  | [], k, e => [(k, e)]
  | p :: ps, k, e => if p.1 = k then (k, e) :: ps else p :: mapSet ps k e

/-- Embedding of `Map.prototype.size` (the embedding's operations keep keys distinct,
so the list length is the number of keys). -/
def mapSize (c : Cache) : Nat := c.length

/-- Definition `getCachedPermission`: the cached boolean if the key is present and not
past its TTL; otherwise `none`, deleting the entry when it was present but
expired.  Returns the updated map alongside the result. -/
def getCachedPermission (now : Nat) (key : String) (c : Cache) :
    Option Bool × Cache :=
  match mapGet c key with
  | none => (none, c)
  | some cached =>
    if now - cached.timestamp > CACHE_TTL then (none, mapDelete c key)
    else (some cached.value, c)

/-- Definition `setCachedPermission`: when the map already holds at least
`CACHE_MAX_SIZE` entries, delete the first key yielded by iteration (the
oldest-inserted one) — but only when that key is truthy, so the empty
string is *not* evicted (`if (oldestKey)`), — then store the value under
`key` with the current timestamp. -/
def setCachedPermission (now : Nat) (key : String) (value : Bool) (c : Cache) : Cache :=
  let c1 :=
    if mapSize c ≥ CACHE_MAX_SIZE then
      match c.head? with
      | some oldest => if oldest.1 = "" then c else mapDelete c oldest.1
      | none => c
    else c
  mapSet c1 key ⟨value, now⟩

/-! ## Cache keys (`stableStringify({ permissionValue, current })`) -/

/-- Rendering of a structured-rule field as the JSON-like value
`JSON.stringify` sees (an absent field contributes no entry). -/
def fieldEntries (name : String) : JField → List (String × JLike)
  | .absent => []
  | .fstr s => [(name, .jstr s)]
  | .fnum n => [(name, .jnum n)]
  | .flist l => [(name, .jarr (l.map JLike.jstr))]

/-- The JSON-like value underlying a runtime permission value. -/
def toJLike : PValue → JLike
  | .pstr s => .jstr s
  | .parr ps => .jarr (ps.map JLike.jstr)
  | .pobj permissions mode =>
    .jobj (fieldEntries "permissions" permissions ++ fieldEntries "mode" mode)
  | .pnull => .jnull
  | .pundefined => .jnull
  | .pnum n => .jnum n

/-- The cache key `stableStringify({ permissionValue, current })` computed
by `hasPermission`.  A property whose value is `undefined` is dropped by
`JSON.stringify`, so an `undefined` rule contributes no `permissionValue`
entry. -/
def cacheKey (permissionValue : PValue) (current : List String) : String :=
  let pvField : List (String × JLike) :=
    match permissionValue with
    | .pundefined => []
    | v => [("permissionValue", toJLike v)]
  stableStringify (.jobj (pvField ++ [("current", .jarr (current.map JLike.jstr))]))

/-- Definition `hasPermission` (src/core/evaluator.ts lines 97–170): look the stable
cache key up (which may lazily delete an expired entry), return a hit
directly, and on a miss run the inner `evaluate` and store the verdict.
The shared map is threaded explicitly; `now` is `Date.now()` during the
call. -/
def hasPermission (eng : RegexEng) (now : Nat) (permissionValue : PValue)
    (current : List String) (cache : Cache) : Bool × Cache :=
  let key := cacheKey permissionValue current
  match getCachedPermission now key cache with
  | (some cached, c1) => (cached, c1)
  | (none, c1) =>
    let result := hasPermissionEvaluate eng permissionValue current
    (result, setCachedPermission now key result c1)

/-- A call to `checkPermissionSync` seen as a transition on the module
state: the source body of `checkPermissionSync` contains no reference to
`permissionCache` (it calls neither `getCachedPermission` nor
`setCachedPermission`), so its action on the shared map is the
identity. -/
def checkPermissionSyncSt (eng : RegexEng) (permissionValue : PValue)
    (current : List String) (cache : Cache) : Bool × Cache :=
  (checkPermissionSync eng permissionValue current, cache)

/-- The cache states reachable by the module: every stored entry was
written by `hasPermission` with the verdict the evaluator computes for the
pair the key serializes. -/
def CacheOK (eng : RegexEng) (c : Cache) : Prop :=
  ∀ v cur e, mapGet c (cacheKey v cur) = some e →
    e.value = hasPermissionEvaluate eng v cur

/-- Folding `setCachedPermission` over a list of `(key, value, timestamp)`
triples, oldest first. -/
def insertAll (inputs : List (String × Bool × Nat)) (c : Cache) : Cache :=
  inputs.foldl (fun acc t => setCachedPermission t.2.2 t.1 t.2.1 acc) c

/-- Two JSON-like values differ only in the insertion order of object keys:
equal leaves, arrays related element by element in order, and objects
related field by field up to a permutation of their (duplicate-free) field
lists, recursively. -/
inductive KeyPerm : JLike → JLike → Prop where
  | same_null : KeyPerm .jnull .jnull
  | same_bool (b : Bool) : KeyPerm (.jbool b) (.jbool b)
  | same_num (n : Int) : KeyPerm (.jnum n) (.jnum n)
  | same_str (s : String) : KeyPerm (.jstr s) (.jstr s)
  | arr_nil : KeyPerm (.jarr []) (.jarr [])
  | arr_cons {x y : JLike} {xs ys : List JLike} : KeyPerm x y →
      KeyPerm (.jarr xs) (.jarr ys) → KeyPerm (.jarr (x :: xs)) (.jarr (y :: ys))
  | obj_nil : KeyPerm (.jobj []) (.jobj [])
  | obj_cons {k : String} {v w : JLike} {fs gs : List (String × JLike)} :
      KeyPerm v w → KeyPerm (.jobj fs) (.jobj gs) →
      KeyPerm (.jobj ((k, v) :: fs)) (.jobj ((k, w) :: gs))
  | obj_perm {fs gs gs' : List (String × JLike)} : KeyPerm (.jobj fs) (.jobj gs) →
      (gs.map Prod.fst).Nodup → gs.Perm gs' → KeyPerm (.jobj fs) (.jobj gs')

/-- Strengthened agreement statement driving the induction for the
order-independence of `stableStringify`: for arrays the rendered element
lists agree, for objects the sorted rendered field lists agree, elsewhere
the rendered strings agree. -/
def SSagree : JLike → JLike → Prop
  | .jarr xs, .jarr ys => ssList xs = ssList ys
  | .jobj fs, .jobj gs => sortFields (ssFields fs) = sortFields (ssFields gs)
  | a, b => stableStringify a = stableStringify b

/-! ## Concrete regex engines and cache states used by witnesses and
counterexamples -/

/-- An engine on which every pattern fails to compile. -/
def engNone : RegexEng := fun _ => none

/-- An engine on which exactly the pattern `"ab"` compiles, to a matcher
that tests whether the input starts with `"ab"`. -/
def engC8 : RegexEng := fun p =>
  if p = "ab" then some (fun u => leadMatch "ab".data u.data) else none

/-- Tail of an at-capacity cache: 999 entries with keys `"aa", "aaa", …`. -/
def c3tail : Cache :=
  (List.range 999).map (fun i => (String.mk (List.replicate (i + 2) 'a'), ⟨true, 0⟩))

/-- An at-capacity cache: keys `"a", "aa", "aaa", …` (1000 keys), oldest
first. -/
def c3cache : Cache := ("a", ⟨true, 0⟩) :: c3tail

/-- Concrete inputs for the C6 witness: 1001 pairwise-distinct non-empty
keys `"a", "aa", "aaa", …`. -/
def c6winputs : List (String × Bool × Nat) :=
  ("a", true, 0) ::
    (List.range CACHE_MAX_SIZE).map (fun i => (String.mk (List.replicate (i + 2) 'a'), true, 0))

/-- Concrete inputs falsifying C6 as frozen: 1001 pairwise-distinct keys
whose very first key is the empty string. -/
def c6binputs : List (String × Bool × Nat) :=
  ("", true, 0) ::
    (List.range CACHE_MAX_SIZE).map (fun i => (String.mk (List.replicate (i + 1) 'a'), true, 0))

/-- The first 1000 of the inputs of `c6binputs`. -/
def c6bF : List (String × Bool × Nat) :=
  ("", true, 0) ::
    (List.range 999).map (fun i => (String.mk (List.replicate (i + 1) 'a'), true, 0))

/-- The 1001st input of `c6binputs`. -/
def c6bz : String × Bool × Nat := (String.mk (List.replicate 1000 'a'), true, 0)

/-! ## Helper lemmas -/

/-- The two hand-duplicated copies of the decision logic agree. -/
theorem evalAgree (eng : RegexEng) (v : PValue) (cur : List String) :
    hasPermissionEvaluate eng v cur = checkPermissionSync eng v cur := by
  cases v <;> rfl

theorem mapGet_mapSet_self (c : Cache) (k : String) (e : CacheEntry) :
    mapGet (mapSet c k e) k = some e := by
  induction c with
  | nil => simp [mapSet, mapGet]
  | cons p ps ih =>
    by_cases h : p.1 = k
    · simp [mapSet, mapGet, h]
    · simp [mapSet, mapGet, h, ih]

theorem mapGet_eq_none (c : Cache) (k : String)
    (h : k ∉ c.map Prod.fst) : mapGet c k = none := by
  induction c with
  | nil => rfl
  | cons p ps ih =>
    simp only [List.map_cons, List.mem_cons] at h
    push_neg at h
    have hp : ¬ p.1 = k := fun he => h.1 he.symm
    simp [mapGet, hp, ih h.2]

theorem mapSet_fresh (c : Cache) (k : String) (e : CacheEntry)
    (h : k ∉ c.map Prod.fst) : mapSet c k e = c ++ [(k, e)] := by
  induction c with
  | nil => rfl
  | cons p ps ih =>
    simp only [List.map_cons, List.mem_cons] at h
    push_neg at h
    have hp : ¬ p.1 = k := fun he => h.1 he.symm
    simp [mapSet, hp, ih h.2]

theorem mapSet_keys_of_mem (c : Cache) (k : String) (e : CacheEntry)
    (h : k ∈ c.map Prod.fst) : (mapSet c k e).map Prod.fst = c.map Prod.fst := by
  induction c with
  | nil => simp at h
  | cons p ps ih =>
    by_cases hp : p.1 = k
    · simp [mapSet, hp]
    · simp only [List.map_cons, List.mem_cons] at h
      rcases h with h | h
      · exact absurd h.symm hp
      · simp [mapSet, hp, ih h]

theorem mapDelete_cons_self (p : String × CacheEntry) (ps : Cache) :
    mapDelete (p :: ps) p.1 = ps := by
  simp [mapDelete]

/-- Below capacity, `set` is a plain `Map.set`. -/
theorem setCached_small (now : Nat) (k : String) (v : Bool) (c : Cache)
    (h : c.length < CACHE_MAX_SIZE) :
    setCachedPermission now k v c = mapSet c k ⟨v, now⟩ := by
  simp [setCachedPermission, mapSize, Nat.not_le_of_lt h]

/-- At (or above) capacity with a non-empty oldest key, `set` first evicts
the oldest entry. -/
theorem setCached_cap (now : Nat) (k : String) (v : Bool) (p : String × CacheEntry)
    (ps : Cache) (hlen : (p :: ps : Cache).length ≥ CACHE_MAX_SIZE) (hne : p.1 ≠ "") :
    setCachedPermission now k v (p :: ps) = mapSet ps k ⟨v, now⟩ := by
  have hlen' : CACHE_MAX_SIZE ≤ ps.length + 1 := by simpa using hlen
  simp [setCachedPermission, mapSize, hlen', hne, mapDelete_cons_self]

/-- At capacity with the empty string as oldest key, the `if (oldestKey)`
guard is falsy and nothing is evicted. -/
theorem setCached_cap_emptyKey (now : Nat) (k : String) (v : Bool)
    (p : String × CacheEntry) (ps : Cache)
    (_hlen : (p :: ps : Cache).length ≥ CACHE_MAX_SIZE) (he : p.1 = "") :
    setCachedPermission now k v (p :: ps) = mapSet (p :: ps) k ⟨v, now⟩ := by
  simp [setCachedPermission, mapSize, he]

/-- Whatever the eviction branch did, the entry just set is retrievable. -/
theorem mapGet_setCached_self (now : Nat) (k : String) (v : Bool) (c : Cache) :
    mapGet (setCachedPermission now k v c) k = some ⟨v, now⟩ := by
  unfold setCachedPermission
  exact mapGet_mapSet_self _ _ _

/-- Keys after a `Map.set`: unchanged when the key was present, the key
appended when it was new. -/
theorem mapSet_keys (c : Cache) (k : String) (e : CacheEntry) :
    (mapSet c k e).map Prod.fst =
      (if k ∈ c.map Prod.fst then c.map Prod.fst else c.map Prod.fst ++ [k]) := by
  by_cases h : k ∈ c.map Prod.fst
  · simp [h, mapSet_keys_of_mem c k e h]
  · simp [h, mapSet_fresh c k e h]

theorem mapGet_mapDelete_self (c : Cache) (k : String)
    (hnd : (c.map Prod.fst).Nodup) : mapGet (mapDelete c k) k = none := by
  induction c with
  | nil => rfl
  | cons p ps ih =>
    simp only [List.map_cons, List.nodup_cons] at hnd
    by_cases h : p.1 = k
    · simp only [mapDelete, h, if_true]
      exact mapGet_eq_none ps k (h ▸ hnd.1)
    · simp [mapDelete, h, mapGet, ih hnd.2]

theorem insertAll_append (a b : List (String × Bool × Nat)) (c : Cache) :
    insertAll (a ++ b) c = insertAll b (insertAll a c) := by
  simp [insertAll, List.foldl_append]

/-- Inserting fresh, pairwise-distinct keys while the capacity bound is
never reached just appends the entries in insertion order. -/
theorem insertAll_fresh : ∀ (inputs : List (String × Bool × Nat)) (c : Cache),
    (∀ k ∈ inputs.map (fun t => t.1), k ∉ c.map Prod.fst) →
    (inputs.map (fun t => t.1)).Nodup →
    c.length + inputs.length ≤ CACHE_MAX_SIZE →
    insertAll inputs c = c ++ inputs.map (fun t => (t.1, ⟨t.2.1, t.2.2⟩)) := by
  intro inputs
  induction inputs with
  | nil => intro c _ _ _; simp [insertAll]
  | cons t ts ih =>
    intro c hfresh hnd hlen
    simp only [List.map_cons, List.length_cons] at hfresh hnd hlen
    have hsmall : c.length < CACHE_MAX_SIZE := by omega
    have hstep : setCachedPermission t.2.2 t.1 t.2.1 c = c ++ [(t.1, ⟨t.2.1, t.2.2⟩)] := by
      rw [setCached_small _ _ _ _ hsmall,
        mapSet_fresh c t.1 _ (hfresh t.1 (List.mem_cons_self _ _))]
    have hrest : insertAll ts (c ++ [(t.1, ⟨t.2.1, t.2.2⟩)]) =
        (c ++ [(t.1, ⟨t.2.1, t.2.2⟩)]) ++ ts.map (fun t => (t.1, ⟨t.2.1, t.2.2⟩)) := by
      apply ih
      · intro k hk
        simp only [List.map_append, List.map_cons, List.map_nil, List.mem_append,
          List.mem_singleton]
        rintro (hc | hh)
        · exact hfresh k (List.mem_cons_of_mem _ hk) hc
        · exact (List.nodup_cons.mp hnd).1 (hh ▸ hk)
      · exact (List.nodup_cons.mp hnd).2
      · simp only [List.length_append, List.length_cons, List.length_nil]
        omega
    calc insertAll (t :: ts) c
        = insertAll ts (setCachedPermission t.2.2 t.1 t.2.1 c) := rfl
      _ = insertAll ts (c ++ [(t.1, ⟨t.2.1, t.2.2⟩)]) := by rw [hstep]
      _ = c ++ ((t.1, ⟨t.2.1, t.2.2⟩) :: ts.map (fun t => (t.1, ⟨t.2.1, t.2.2⟩)) : Cache) := by
          rw [hrest]; simp
      _ = c ++ (t :: ts).map (fun t => (t.1, ⟨t.2.1, t.2.2⟩)) := by simp

theorem lexLeChars_total (a b : List Char) :
    lexLeChars a b = true ∨ lexLeChars b a = true := by
  induction a generalizing b with
  | nil => left; rfl
  | cons x xs ih =>
    cases b with
    | nil => right; rfl
    | cons y ys =>
      by_cases hxy : x < y
      · left; simp [lexLeChars, hxy]
      · by_cases hyx : y < x
        · right; simp [lexLeChars, hyx]
        · rcases ih ys with h | h
          · left; simp [lexLeChars, hxy, hyx, h]
          · right; simp [lexLeChars, hxy, hyx, h]

theorem lexLeChars_trans (a b c : List Char) (h1 : lexLeChars a b = true)
    (h2 : lexLeChars b c = true) : lexLeChars a c = true := by
  induction a generalizing b c with
  | nil => rfl
  | cons x xs ih =>
    cases b with
    | nil => simp [lexLeChars] at h1
    | cons y ys =>
      cases c with
      | nil => simp [lexLeChars] at h2
      | cons z zs =>
        by_cases hxy : x < y
        · by_cases hyz : y < z
          · simp [lexLeChars, lt_trans hxy hyz]
          · by_cases hzy : z < y
            · simp [lexLeChars, hyz, hzy] at h2
            · have hyz' : y = z := le_antisymm (not_lt.mp hzy) (not_lt.mp hyz)
              simp [lexLeChars, hyz' ▸ hxy]
        · by_cases hyx : y < x
          · simp [lexLeChars, hxy, hyx] at h1
          · have hxy' : x = y := le_antisymm (not_lt.mp hyx) (not_lt.mp hxy)
            by_cases hyz : y < z
            · simp [lexLeChars, hxy' ▸ hyz]
            · by_cases hzy : z < y
              · simp [lexLeChars, hyz, hzy] at h2
              · have hyz' : y = z := le_antisymm (not_lt.mp hzy) (not_lt.mp hyz)
                have hxz : ¬ x < z := hyz' ▸ hxy' ▸ lt_irrefl x
                have hzx : ¬ z < x := hyz' ▸ hxy' ▸ lt_irrefl x
                simp only [lexLeChars, hxz, hzx, if_false]
                exact ih ys zs (by simpa [lexLeChars, hxy, hyx] using h1)
                  (by simpa [lexLeChars, hyz, hzy] using h2)

theorem lexLeChars_antisymm (a b : List Char) (h1 : lexLeChars a b = true)
    (h2 : lexLeChars b a = true) : a = b := by
  induction a generalizing b with
  | nil =>
    cases b with
    | nil => rfl
    | cons y ys => simp [lexLeChars] at h2
  | cons x xs ih =>
    cases b with
    | nil => simp [lexLeChars] at h1
    | cons y ys =>
      by_cases hxy : x < y
      · simp [lexLeChars, hxy, asymm hxy] at h2
      · by_cases hyx : y < x
        · simp [lexLeChars, hxy, hyx] at h1
        · have hxy' : x = y := le_antisymm (not_lt.mp hyx) (not_lt.mp hxy)
          have h1' : lexLeChars xs ys = true := by simpa [lexLeChars, hxy, hyx] using h1
          have h2' : lexLeChars ys xs = true := by simpa [lexLeChars, hxy, hyx] using h2
          rw [hxy', ih ys h1' h2']

theorem keyLe_total (p q : String × String) : keyLe p q = true ∨ keyLe q p = true :=
  lexLeChars_total _ _

theorem keyLe_trans {p q r : String × String} (h1 : keyLe p q = true)
    (h2 : keyLe q r = true) : keyLe p r = true :=
  lexLeChars_trans _ _ _ h1 h2

theorem keyLe_antisymm_key {p q : String × String} (h1 : keyLe p q = true)
    (h2 : keyLe q p = true) : p.1 = q.1 := by
  have hd : p.1.data = q.1.data := lexLeChars_antisymm _ _ h1 h2
  cases hp : p.1 with
  | mk l =>
    cases hq : q.1 with
    | mk m =>
      have hlm : l = m := by simpa [hp, hq] using hd
      rw [hlm]

theorem mem_insertField (p x : String × String) (l : List (String × String)) :
    x ∈ insertField p l ↔ x = p ∨ x ∈ l := by
  induction l with
  | nil => simp [insertField]
  | cons q qs ih =>
    by_cases h : keyLe p q
    · simp only [insertField, if_pos h, List.mem_cons]
    · simp only [insertField, if_neg h, List.mem_cons, ih]
      tauto

theorem insertField_perm (p : String × String) (l : List (String × String)) :
    List.Perm (insertField p l) (p :: l) := by
  induction l with
  | nil => exact List.Perm.refl _
  | cons q qs ih =>
    by_cases h : keyLe p q
    · simp only [insertField, if_pos h]
      exact List.Perm.refl _
    · simp only [insertField, if_neg h]
      exact (ih.cons q).trans (List.Perm.swap p q qs)

theorem sortFields_perm (l : List (String × String)) : List.Perm (sortFields l) l := by
  induction l with
  | nil => exact List.Perm.refl _
  | cons p ps ih => exact (insertField_perm p (sortFields ps)).trans (ih.cons p)

theorem insertField_pairwise (p : String × String) (l : List (String × String))
    (h : l.Pairwise (fun a b => keyLe a b = true)) :
    (insertField p l).Pairwise (fun a b => keyLe a b = true) := by
  induction l with
  | nil => simp [insertField]
  | cons q qs ih =>
    rcases List.pairwise_cons.mp h with ⟨hq, hqs⟩
    by_cases hpq : keyLe p q
    · simp only [insertField, if_pos hpq]
      refine List.pairwise_cons.mpr ⟨?_, h⟩
      intro x hx
      rcases List.mem_cons.mp hx with rfl | hx
      · exact hpq
      · exact keyLe_trans hpq (hq x hx)
    · simp only [insertField, if_neg hpq]
      refine List.pairwise_cons.mpr ⟨?_, ih hqs⟩
      intro x hx
      rcases (mem_insertField p x qs).mp hx with rfl | hx
      · rcases keyLe_total x q with h' | h'
        · exact absurd h' hpq
        · exact h'
      · exact hq x hx

theorem sortFields_pairwise (l : List (String × String)) :
    (sortFields l).Pairwise (fun a b => keyLe a b = true) := by
  induction l with
  | nil => simp [sortFields]
  | cons p ps ih => exact insertField_pairwise p (sortFields ps) ih

/-- Two field lists that are permutations of each other, with no duplicate
keys, sort to the same list. -/
theorem sortFields_eq_of_perm (l1 l2 : List (String × String)) (hperm : List.Perm l1 l2)
    (hnd : (l1.map Prod.fst).Nodup) : sortFields l1 = sortFields l2 := by
  have hnd2 : (l2.map Prod.fst).Nodup := hnd.perm (hperm.map Prod.fst)
  have hsorted : ∀ (l : List (String × String)), (l.map Prod.fst).Nodup →
      (sortFields l).Pairwise (fun a b => keyLe a b = true ∧ a.1 ≠ b.1) := by
    intro l hl
    have h1 := sortFields_pairwise l
    have h2 : ((sortFields l).map Prod.fst).Nodup :=
      hl.perm ((sortFields_perm l).map Prod.fst).symm
    have h3 : (sortFields l).Pairwise (fun a b => a.1 ≠ b.1) :=
      (List.pairwise_map).mp h2
    exact h1.and h3
  haveI : IsAntisymm (String × String) (fun a b => keyLe a b = true ∧ a.1 ≠ b.1) :=
    ⟨fun a b h1 h2 => absurd (keyLe_antisymm_key h1.1 h2.1) h1.2⟩
  exact List.eq_of_perm_of_sorted
    ((sortFields_perm l1).trans (hperm.trans (sortFields_perm l2).symm))
    (hsorted l1 hnd) (hsorted l2 hnd2)

theorem ssList_eq_map (xs : List JLike) : ssList xs = xs.map stableStringify := by
  induction xs with
  | nil => rfl
  | cons x xs ih => simp [ssList, ih]

theorem ssFields_eq_map (fs : List (String × JLike)) :
    ssFields fs = fs.map (fun p => (p.1, jquote p.1 ++ ":" ++ stableStringify p.2)) := by
  induction fs with
  | nil => rfl
  | cons p ps ih => cases p; simp [ssFields, ih]

theorem SSagree.out {a b : JLike} (h : SSagree a b) :
    stableStringify a = stableStringify b := by
  cases a <;> cases b <;> first
    | exact h
    | (simp only [SSagree] at h
       simp [stableStringify, h])

theorem keyPerm_SSagree {a b : JLike} (h : KeyPerm a b) : SSagree a b := by
  induction h with
  | same_null => rfl
  | same_bool b => rfl
  | same_num n => rfl
  | same_str s => rfl
  | arr_nil => rfl
  | arr_cons h1 h2 ih1 ih2 =>
    simp only [SSagree] at ih2 ⊢
    simp [ssList, ih1.out, ih2]
  | obj_nil => rfl
  | obj_cons h1 h2 ih1 ih2 =>
    simp only [SSagree] at ih2 ⊢
    simp [ssFields, sortFields, ih1.out, ih2]
  | obj_perm h1 hnd hperm ih =>
    simp only [SSagree] at ih ⊢
    rw [ih]
    apply sortFields_eq_of_perm
    · rw [ssFields_eq_map, ssFields_eq_map]
      exact hperm.map _
    · rw [ssFields_eq_map]
      simpa [Function.comp] using hnd

/-- On a compliant cache state, `hasPermission` returns exactly the verdict
of its inner `evaluate`. -/
theorem hasPermission_fst (eng : RegexEng) (now : Nat) (v : PValue)
    (cur : List String) (c : Cache) (hok : CacheOK eng c) :
    (hasPermission eng now v cur c).1 = hasPermissionEvaluate eng v cur := by
  unfold hasPermission getCachedPermission
  cases hget : mapGet c (cacheKey v cur) with
  | none => simp [hget]
  | some e =>
    by_cases hexp : now - e.timestamp > CACHE_TTL
    · simp [hget, hexp]
    · have hval := hok v cur e hget
      simp [hget, hexp, hval]

/-- A second call with the same rule and held list (at any later clock
reading) returns the same boolean as the first. -/
theorem hasPermission_repeat (eng : RegexEng) (now now2 : Nat) (v : PValue)
    (cur : List String) (c : Cache) (hok : CacheOK eng c) :
    (hasPermission eng now2 v cur (hasPermission eng now v cur c).2).1 =
      (hasPermission eng now v cur c).1 := by
  unfold hasPermission getCachedPermission
  cases hget : mapGet c (cacheKey v cur) with
  | none =>
    have hself := mapGet_setCached_self now (cacheKey v cur)
      (hasPermissionEvaluate eng v cur) c
    by_cases hexp : now2 - now > CACHE_TTL <;> simp [hget, hself, hexp]
  | some e =>
    have hval := hok v cur e hget
    by_cases hexp : now - e.timestamp > CACHE_TTL
    · have hself := mapGet_setCached_self now (cacheKey v cur)
        (hasPermissionEvaluate eng v cur) (mapDelete c (cacheKey v cur))
      by_cases hexp2 : now2 - now > CACHE_TTL <;> simp [hget, hself, hexp, hexp2]
    · by_cases hexp2 : now2 - e.timestamp > CACHE_TTL <;>
        simp [hget, hexp, hexp2, hval]

/-! ## Claims -/

/-- C1: for every rule and held list, the synchronous evaluator returns the
same boolean as awaiting the asynchronous one, and a repeated call (at any
later clock reading) returns the same boolean as the first.  The cache
hypothesis `CacheOK` says every stored entry was produced by the evaluator
itself, which holds for every state the module can reach (the empty initial
map vacuously, and `hasPermission` only ever stores its own verdicts);
determinism of each single form is inherent in the embedding, both being
functions of `(rule, held)`. -/
theorem C1_sync_async_agree (eng : RegexEng) (rule : PValue) (held : List String)
    (now now2 : Nat) (cache : Cache) (hok : CacheOK eng cache) :
    (hasPermission eng now rule held cache).1 = checkPermissionSync eng rule held ∧
    (hasPermission eng now2 rule held (hasPermission eng now rule held cache).2).1 =
      (hasPermission eng now rule held cache).1 := by
  constructor
  · rw [hasPermission_fst eng now rule held cache hok, evalAgree]
  · exact hasPermission_repeat eng now now2 rule held cache hok

theorem C1_witness :
    CacheOK engNone ([] : Cache) ∧
    ((hasPermission engNone 5 (.pstr "a") ["a"] []).1 =
        checkPermissionSync engNone (.pstr "a") ["a"] ∧
      (hasPermission engNone 9 (.pstr "a") ["a"]
          (hasPermission engNone 5 (.pstr "a") ["a"] []).2).1 =
        (hasPermission engNone 5 (.pstr "a") ["a"] []).1) :=
  have hok : CacheOK engNone ([] : Cache) := fun _ _ _ h => nomatch h
  And.intro hok (C1_sync_async_agree engNone (.pstr "a") ["a"] 5 9 [] hok)

/-- C2 as frozen is false on the code: for `P = ["*"]` the wildcard
short-circuit fires before the mode dispatch, so both the `not` rule and
the `or` rule evaluate to `true` — not complements. -/
theorem C2_cex :
    checkPermissionSync engNone (.pobj (.flist ["*"]) (.fstr "not")) [] = true ∧
    checkPermissionSync engNone (.pobj (.flist ["*"]) (.fstr "or")) [] = true ∧
    hasPermissionEvaluate engNone (.pobj (.flist ["*"]) (.fstr "not")) [] = true ∧
    hasPermissionEvaluate engNone (.pobj (.flist ["*"]) (.fstr "or")) [] = true ∧
    ¬ (checkPermissionSync engNone (.pobj (.flist ["*"]) (.fstr "not")) [] =
        ! checkPermissionSync engNone (.pobj (.flist ["*"]) (.fstr "or")) []) := by
  decide

/-- C2 amended: for every non-empty permission list that does not contain
the wildcard `"*"`, the structured `not` rule evaluates to the negation of
the structured `or` rule on the same held list, in both evaluator forms. -/
theorem C2_not_or_complement (eng : RegexEng) (P held : List String)
    (hne : P ≠ []) (hwild : "*" ∉ P) :
    checkPermissionSync eng (.pobj (.flist P) (.fstr "not")) held =
      ! checkPermissionSync eng (.pobj (.flist P) (.fstr "or")) held ∧
    hasPermissionEvaluate eng (.pobj (.flist P) (.fstr "not")) held =
      ! hasPermissionEvaluate eng (.pobj (.flist P) (.fstr "or")) held := by
  have hwild' : P.contains "*" = false := by
    simpa using hwild
  constructor
  · simp [checkPermissionSync, isPermissionObject, VALID_MODES, hne, hwild', hwild]
  · simp [hasPermissionEvaluate, isPermissionObject, VALID_MODES, hne, hwild', hwild]

theorem C2_witness :
    checkPermissionSync engNone (.pobj (.flist ["a"]) (.fstr "not")) ["a"] =
      ! checkPermissionSync engNone (.pobj (.flist ["a"]) (.fstr "or")) ["a"] :=
  (C2_not_or_complement engNone ["a"] ["a"] (by decide) (by decide)).1

/-- C4 as frozen is false on the code: in a structured rule the mode is
validated *before* the wildcard short-circuit, so a permission list
containing `"*"` under an unrecognized mode evaluates to `false`, not
`true`. -/
theorem C4_cex :
    checkPermissionSync engNone (.pobj (.flist ["*"]) (.fstr "bogus")) [] = false ∧
    hasPermissionEvaluate engNone (.pobj (.flist ["*"]) (.fstr "bogus")) [] = false := by
  decide

/-- C4 amended: the rule `"*"` always evaluates to `true`; a permission
list containing `"*"` evaluates to `true` in the array form and, under any
of the six *recognized* modes, in the structured form, where the wildcard
short-circuits before the mode dispatch runs (the conclusion does not
depend on the mode or on the regex engine). -/
theorem C4_wildcard (eng : RegexEng) (held : List String) :
    checkPermissionSync eng (.pstr "*") held = true ∧
    hasPermissionEvaluate eng (.pstr "*") held = true ∧
    (∀ ps, "*" ∈ ps →
      checkPermissionSync eng (.parr ps) held = true ∧
      hasPermissionEvaluate eng (.parr ps) held = true) ∧
    (∀ ps m, "*" ∈ ps → m ∈ VALID_MODES →
      checkPermissionSync eng (.pobj (.flist ps) (.fstr m)) held = true ∧
      hasPermissionEvaluate eng (.pobj (.flist ps) (.fstr m)) held = true) := by
  refine ⟨rfl, rfl, ?_, ?_⟩
  · intro ps hps
    have h : ps.contains "*" = true := by simpa using hps
    constructor
    · simp [checkPermissionSync, h, hps]
    · simp [hasPermissionEvaluate, h, hps]
  · intro ps m hps hm
    have h : ps.contains "*" = true := by simpa using hps
    have hm' : VALID_MODES.contains m = true := by simpa using hm
    have hne : ps ≠ [] := List.ne_nil_of_mem hps
    constructor
    · simp [checkPermissionSync, isPermissionObject, hm', hne, h, hps, hm]
    · simp [hasPermissionEvaluate, isPermissionObject, hm', hne, h, hps, hm]

theorem C4_witness :
    checkPermissionSync engNone (.parr ["a", "*"]) ["x"] = true ∧
    checkPermissionSync engNone (.pobj (.flist ["a", "*"]) (.fstr "not")) ["x"] = true :=
  ⟨((C4_wildcard engNone ["x"]).2.2.1 ["a", "*"] (by decide)).1,
    ((C4_wildcard engNone ["x"]).2.2.2 ["a", "*"] "not" (by decide) (by decide)).1⟩

/-- C5: structurally invalid inputs — `null`, `undefined`, a number, a
structured rule whose mode is not one of the six recognized values, or a
structured rule whose permissions field is missing, not a list, or an empty
list — evaluate to `false` in both evaluator forms.  Both forms are total
Lean functions, so no input can make the embedded evaluators throw. -/
theorem C5_invalid_fail_closed (eng : RegexEng) (held : List String) :
    checkPermissionSync eng .pnull held = false ∧
    hasPermissionEvaluate eng .pnull held = false ∧
    checkPermissionSync eng .pundefined held = false ∧
    hasPermissionEvaluate eng .pundefined held = false ∧
    (∀ n : Int, checkPermissionSync eng (.pnum n) held = false ∧
      hasPermissionEvaluate eng (.pnum n) held = false) ∧
    (∀ pf mf, (∀ m, mf = JField.fstr m → m ∉ VALID_MODES) →
      checkPermissionSync eng (.pobj pf mf) held = false ∧
      hasPermissionEvaluate eng (.pobj pf mf) held = false) ∧
    (∀ mf, checkPermissionSync eng (.pobj .absent mf) held = false ∧
      hasPermissionEvaluate eng (.pobj .absent mf) held = false) ∧
    (∀ s mf, checkPermissionSync eng (.pobj (.fstr s) mf) held = false ∧
      hasPermissionEvaluate eng (.pobj (.fstr s) mf) held = false) ∧
    (∀ n mf, checkPermissionSync eng (.pobj (.fnum n) mf) held = false ∧
      hasPermissionEvaluate eng (.pobj (.fnum n) mf) held = false) ∧
    (∀ mf, checkPermissionSync eng (.pobj (.flist []) mf) held = false ∧
      hasPermissionEvaluate eng (.pobj (.flist []) mf) held = false) := by
  refine ⟨rfl, rfl, rfl, rfl, fun n => ⟨rfl, rfl⟩, ?_, ?_, ?_, ?_, ?_⟩
  · intro pf mf hmf
    cases mf with
    | absent => cases pf <;> exact ⟨rfl, rfl⟩
    | fstr m =>
      have hm2 : m ∉ VALID_MODES := hmf m rfl
      have hm' : VALID_MODES.contains m = false := by simpa using hm2
      constructor
      · cases pf <;> simp [checkPermissionSync, isPermissionObject, hm', hm2]
      · cases pf <;> simp [hasPermissionEvaluate, isPermissionObject, hm', hm2]
    | fnum n => cases pf <;> exact ⟨rfl, rfl⟩
    | flist l => cases pf <;> exact ⟨rfl, rfl⟩
  · intro mf
    cases mf <;> exact ⟨rfl, rfl⟩
  · intro s mf
    cases mf <;> constructor <;>
      simp [checkPermissionSync, hasPermissionEvaluate, isPermissionObject]
  · intro n mf
    cases mf <;> constructor <;>
      simp [checkPermissionSync, hasPermissionEvaluate, isPermissionObject]
  · intro mf
    cases mf <;> constructor <;>
      simp [checkPermissionSync, hasPermissionEvaluate, isPermissionObject]

theorem C5_witness :
    checkPermissionSync engNone (.pobj (.flist ["x"]) (.fstr "bogus")) ["x"] = false ∧
    checkPermissionSync engNone (.pobj .absent (.fstr "and")) ["x"] = false ∧
    checkPermissionSync engNone (.pobj (.fstr "w") (.fstr "and")) ["x"] = false ∧
    checkPermissionSync engNone (.pobj (.fnum 3) (.fstr "and")) ["x"] = false ∧
    checkPermissionSync engNone (.pobj (.flist []) (.fstr "and")) ["x"] = false :=
  ⟨((C5_invalid_fail_closed engNone ["x"]).2.2.2.2.2.1 (.flist ["x"]) (.fstr "bogus")
      (fun m hm => by injection hm with h; rw [← h]; decide)).1,
    ((C5_invalid_fail_closed engNone ["x"]).2.2.2.2.2.2.1 (.fstr "and")).1,
    ((C5_invalid_fail_closed engNone ["x"]).2.2.2.2.2.2.2.1 "w" (.fstr "and")).1,
    ((C5_invalid_fail_closed engNone ["x"]).2.2.2.2.2.2.2.2.1 3 (.fstr "and")).1,
    ((C5_invalid_fail_closed engNone ["x"]).2.2.2.2.2.2.2.2.2 (.fstr "and")).1⟩

/-- C7: a cache read returns the stored boolean exactly when the key is
present and not expired (`now − insertedAt ≤ TTL`); a read of an expired
entry reports absent and removes the entry, so its stale boolean is never
returned; a read of an absent key reports absent and changes nothing.  The
no-duplicate-keys hypothesis holds for every state a JavaScript `Map` can
be in. -/
theorem C7_cache_get_ttl (now : Nat) (key : String) (c : Cache)
    (hnd : (c.map Prod.fst).Nodup) :
    (∀ e, mapGet c key = some e → now - e.timestamp ≤ CACHE_TTL →
      getCachedPermission now key c = (some e.value, c)) ∧
    (∀ e, mapGet c key = some e → now - e.timestamp > CACHE_TTL →
      (getCachedPermission now key c).1 = none ∧
        mapGet (getCachedPermission now key c).2 key = none) ∧
    (mapGet c key = none → getCachedPermission now key c = (none, c)) := by
  refine ⟨?_, ?_, ?_⟩
  · intro e he hle
    simp [getCachedPermission, he, Nat.not_lt.mpr hle]
  · intro e he hgt
    constructor
    · simp [getCachedPermission, he, hgt]
    · simp only [getCachedPermission, he, hgt, if_pos]
      exact mapGet_mapDelete_self c key hnd
  · intro h
    simp [getCachedPermission, h]

theorem C7_witness :
    (getCachedPermission (CACHE_TTL + 1) "k" [("k", ⟨true, 0⟩)]).1 = none ∧
    mapGet (getCachedPermission (CACHE_TTL + 1) "k" [("k", ⟨true, 0⟩)]).2 "k" = none :=
  (C7_cache_get_ttl (CACHE_TTL + 1) "k" [("k", ⟨true, 0⟩)] (by decide)).2.1
    ⟨true, 0⟩ (by decide) (by decide)

/-- C8: in regex mode a pattern the engine cannot compile contributes no
match — a rule consisting of only that pattern is `false` — and the rule
can still evaluate to `true` through another, compilable pattern in the
same permissions list; the embedded evaluators are total functions, so the
failed compilation never escapes as an exception. -/
theorem C8_regex_invalid_skipped (eng : RegexEng) (held : List String) (p q : String)
    (hp : eng p = none) (hpw : p ≠ "*") (hqw : q ≠ "*")
    (f : String → Bool) (hq : eng q = some f) (hmatch : held.any f = true) :
    checkPermissionSync eng (.pobj (.flist [p]) (.fstr "regex")) held = false ∧
    hasPermissionEvaluate eng (.pobj (.flist [p]) (.fstr "regex")) held = false ∧
    checkPermissionSync eng (.pobj (.flist [p, q]) (.fstr "regex")) held = true ∧
    hasPermissionEvaluate eng (.pobj (.flist [p, q]) (.fstr "regex")) held = true := by
  have hps : ¬ "*" = p := fun h => hpw h.symm
  have hqs : ¬ "*" = q := fun h => hqw h.symm
  have hw1 : ([p] : List String).contains "*" = false := by simp [hps]
  have hw2 : ([p, q] : List String).contains "*" = false := by simp [hps, hqs]
  refine ⟨?_, ?_, ?_, ?_⟩ <;>
    simp [checkPermissionSync, hasPermissionEvaluate, isPermissionObject, VALID_MODES,
      hw1, hw2, hps, hqs, validateRegexPattern, hp, hq, hmatch]

theorem C8_witness :
    checkPermissionSync engC8 (.pobj (.flist ["[bad("]) (.fstr "regex")) ["abc"] = false ∧
    checkPermissionSync engC8 (.pobj (.flist ["[bad(", "ab"]) (.fstr "regex")) ["abc"] = true :=
  ⟨(C8_regex_invalid_skipped engC8 ["abc"] "[bad(" "ab" rfl (by decide) (by decide)
      (fun u => leadMatch "ab".data u.data) rfl (by decide)).1,
    (C8_regex_invalid_skipped engC8 ["abc"] "[bad(" "ab" rfl (by decide) (by decide)
      (fun u => leadMatch "ab".data u.data) rfl (by decide)).2.2.1⟩

/-- C9: `stableStringify` is deterministic (it is a function of its
argument) and order-independent over object keys: two JSON-like values
that differ only in the insertion order of object keys, at any nesting
depth, with array element order identical (the `KeyPerm` relation),
serialize to the identical string. -/
theorem C9_stableStringify_order_independent (a b : JLike) (h : KeyPerm a b) :
    stableStringify a = stableStringify b :=
  (keyPerm_SSagree h).out

theorem C9_witness :
    stableStringify (.jobj [("mode", .jstr "and"),
        ("permissions", .jarr [.jstr "a", .jstr "b"])]) =
      stableStringify (.jobj [("permissions", .jarr [.jstr "a", .jstr "b"]),
        ("mode", .jstr "and")]) :=
  C9_stableStringify_order_independent _ _
    (KeyPerm.obj_perm
      (KeyPerm.obj_cons (KeyPerm.same_str "and")
        (KeyPerm.obj_cons
          (KeyPerm.arr_cons (KeyPerm.same_str "a")
            (KeyPerm.arr_cons (KeyPerm.same_str "b") KeyPerm.arr_nil))
          KeyPerm.obj_nil))
      (by decide)
      (List.Perm.swap ("permissions", JLike.jarr [JLike.jstr "a", JLike.jstr "b"])
        ("mode", JLike.jstr "and") []))

/-- Injectivity on the key family `"a"^(i+k)` used by the concrete cache
states below. -/
theorem repKey_inj (k : Nat) {i j : Nat}
    (h : String.mk (List.replicate (i + k) 'a') = String.mk (List.replicate (j + k) 'a')) :
    i = j := by
  have hd := congrArg (fun s => s.data.length) h
  simp at hd
  omega

/-- Distinct exponents give distinct keys in the family `"a"^n`. -/
theorem repKey_ne {n m : Nat} (hnm : n ≠ m) :
    String.mk (List.replicate n 'a') ≠ String.mk (List.replicate m 'a') := by
  intro h
  have hd := congrArg (fun s => s.data.length) h
  simp at hd
  exact hnm hd

theorem c3cache_length : c3cache.length = CACHE_MAX_SIZE := by
  simp [c3cache, c3tail, CACHE_MAX_SIZE]

theorem mem_aa_c3tail : "aa" ∈ c3tail.map Prod.fst := by
  simp only [c3tail, List.map_map]
  exact List.mem_map.mpr ⟨0, by simp, by decide⟩

theorem not_mem_a_c3tail : "a" ∉ c3tail.map Prod.fst := by
  simp only [c3tail, List.map_map]
  intro h
  rcases List.mem_map.mp h with ⟨i, _, hi⟩
  have hd := congrArg (fun s => s.data.length) hi
  simp at hd

/-- C3 amended: `set(key, value)` always stores the entry for `key` with
the current timestamp.  Below the capacity bound nothing is evicted (an
overwrite keeps the key set unchanged, a new key is appended).  But the
eviction check fires whenever the map already holds at least
`CACHE_MAX_SIZE` entries — regardless of whether `key` is already present —
evicting the earliest-inserted entry (provided its key is non-empty), so an
overwrite at capacity does evict the oldest entry. -/
theorem C3_set_behavior (now : Nat) (key : String) (value : Bool) (c : Cache) :
    mapGet (setCachedPermission now key value c) key = some ⟨value, now⟩ ∧
    (c.length < CACHE_MAX_SIZE →
      (setCachedPermission now key value c).map Prod.fst =
        (if key ∈ c.map Prod.fst then c.map Prod.fst else c.map Prod.fst ++ [key])) ∧
    (∀ p ps, c = p :: ps → c.length ≥ CACHE_MAX_SIZE → p.1 ≠ "" →
      (setCachedPermission now key value c).map Prod.fst =
        (if key ∈ ps.map Prod.fst then ps.map Prod.fst else ps.map Prod.fst ++ [key])) := by
  refine ⟨mapGet_setCached_self now key value c, ?_, ?_⟩
  · intro h
    rw [setCached_small now key value c h, mapSet_keys]
  · rintro p ps rfl hlen hne
    rw [setCached_cap now key value p ps hlen hne, mapSet_keys]

theorem C3_witness :
    mapGet (setCachedPermission 7 "aa" false c3cache) "aa" = some ⟨false, 7⟩ ∧
    (setCachedPermission 7 "aa" false c3cache).map Prod.fst =
      (if "aa" ∈ c3tail.map Prod.fst then c3tail.map Prod.fst
        else c3tail.map Prod.fst ++ ["aa"]) :=
  ⟨(C3_set_behavior 7 "aa" false c3cache).1,
    (C3_set_behavior 7 "aa" false c3cache).2.2 ("a", ⟨true, 0⟩) c3tail rfl
      c3cache_length.ge (by decide)⟩

/-- C3 as frozen is false on the code: `c3cache` is at capacity and holds
both `"a"` (oldest) and `"aa"`; overwriting the already-present key `"aa"`
still evicts the entry `"a"`. -/
theorem C3_cex :
    c3cache.length = CACHE_MAX_SIZE ∧
    "a" ∈ c3cache.map Prod.fst ∧
    "aa" ∈ c3cache.map Prod.fst ∧
    "a" ∉ (setCachedPermission 7 "aa" false c3cache).map Prod.fst := by
  refine ⟨c3cache_length, by simp [c3cache], ?_, ?_⟩
  · simp only [c3cache, List.map_cons]
    exact List.mem_cons_of_mem _ mem_aa_c3tail
  · rw [show c3cache = ("a", ⟨true, 0⟩) :: c3tail from rfl,
      setCached_cap 7 "aa" false ("a", ⟨true, 0⟩) c3tail c3cache_length.ge (by decide),
      mapSet_keys, if_pos mem_aa_c3tail]
    exact not_mem_a_c3tail

/-- Any prefix of a run of inserts with pairwise-distinct keys that stays
within the capacity bound materializes exactly its own entries. -/
theorem insertAll_take_le (inputs : List (String × Bool × Nat))
    (hnd : (inputs.map (fun t => t.1)).Nodup) (i : Nat) (hi : i ≤ CACHE_MAX_SIZE) :
    insertAll (inputs.take i) [] =
      (inputs.take i).map (fun t => (t.1, ⟨t.2.1, t.2.2⟩)) := by
  have hnd' : ((inputs.take i).map (fun t => t.1)).Nodup := by
    rw [List.map_take]
    exact (List.take_sublist i _).nodup hnd
  have hfresh : ∀ k ∈ (inputs.take i).map (fun t => t.1),
      k ∉ ([] : Cache).map Prod.fst := by simp
  have hlen : ([] : Cache).length + (inputs.take i).length ≤ CACHE_MAX_SIZE := by
    simp only [List.length_nil, List.length_take, Nat.zero_add]
    omega
  simpa using insertAll_fresh (inputs.take i) [] hfresh hnd' hlen

/-- C6 amended: inserting `CACHE_MAX_SIZE + 1` pairwise-distinct keys into
the empty cache — provided the very first key is not the empty string —
leaves exactly `CACHE_MAX_SIZE` entries, with the first-inserted key
evicted, every other inserted key retained in order, and at no prefix of
the run does the cache ever exceed `CACHE_MAX_SIZE` entries. -/
theorem C6_cache_bound (inputs : List (String × Bool × Nat))
    (hlen : inputs.length = CACHE_MAX_SIZE + 1)
    (hnd : (inputs.map (fun t => t.1)).Nodup)
    (hne : ∀ p, inputs.head? = some p → p.1 ≠ "") :
    (insertAll inputs []).map Prod.fst = (inputs.map (fun t => t.1)).tail ∧
    (insertAll inputs []).length = CACHE_MAX_SIZE ∧
    (∀ p, inputs.head? = some p → p.1 ∉ (insertAll inputs []).map Prod.fst) ∧
    (∀ i, (insertAll (inputs.take i) []).length ≤ CACHE_MAX_SIZE) := by
  have hnil : inputs ≠ [] := by
    intro h
    rw [h] at hlen
    simp [CACHE_MAX_SIZE] at hlen
  have hsplit : inputs.dropLast ++ [inputs.getLast hnil] = inputs :=
    List.dropLast_append_getLast hnil
  set F := inputs.dropLast with hF
  set z := inputs.getLast hnil with hz
  have hFlen : F.length = CACHE_MAX_SIZE := by
    rw [hF, List.length_dropLast, hlen]
    omega
  have hkeys : inputs.map (fun t => t.1) = F.map (fun t => t.1) ++ [z.1] := by
    rw [← hsplit]
    simp
  have hndF : (F.map (fun t => t.1)).Nodup := by
    rw [hkeys] at hnd
    exact (List.Nodup.of_append_left hnd)
  have hzF : z.1 ∉ F.map (fun t => t.1) := by
    rw [hkeys] at hnd
    intro hmem
    exact List.disjoint_of_nodup_append hnd hmem (by simp)
  have hCF : insertAll F [] = F.map (fun t => (t.1, ⟨t.2.1, t.2.2⟩)) := by
    apply insertAll_fresh F [] (by simp) hndF
    simp [hFlen]
  cases hFc : F with
  | nil => rw [hFc] at hFlen; simp [CACHE_MAX_SIZE] at hFlen
  | cons f0 F' =>
    have hF'len : F'.length + 1 = CACHE_MAX_SIZE := by
      have h0 := hFlen
      rw [hFc] at h0
      simpa using h0
    have hcomp : (F'.map (fun t => (t.1, (⟨t.2.1, t.2.2⟩ : CacheEntry)))).map Prod.fst
        = F'.map (fun t => t.1) := by
      rw [List.map_map]
      rfl
    have hhead : inputs.head? = some f0 := by
      rw [← hsplit, hFc]
      rfl
    have hf0 : f0.1 ≠ "" := hne f0 hhead
    have hstep : insertAll inputs [] =
        mapSet (F'.map (fun t => (t.1, ⟨t.2.1, t.2.2⟩))) z.1 ⟨z.2.1, z.2.2⟩ := by
      rw [← hsplit, insertAll_append, hCF, hFc]
      show setCachedPermission z.2.2 z.1 z.2.1 _ = _
      rw [List.map_cons]
      exact setCached_cap z.2.2 z.1 z.2.1 _ _
        (by simp only [List.length_cons, List.length_map]; omega) hf0
    have hzF' : z.1 ∉ (F'.map (fun t => (t.1, (⟨t.2.1, t.2.2⟩ : CacheEntry)))).map Prod.fst := by
      rw [hcomp]
      intro hmem
      apply hzF
      rw [hFc, List.map_cons]
      exact List.mem_cons_of_mem _ hmem
    have hfinal : insertAll inputs [] =
        F'.map (fun t => (t.1, ⟨t.2.1, t.2.2⟩)) ++ [(z.1, ⟨z.2.1, z.2.2⟩)] := by
      rw [hstep, mapSet_fresh _ _ _ hzF']
    have hkeysfinal : (insertAll inputs []).map Prod.fst =
        F'.map (fun t => t.1) ++ [z.1] := by
      rw [hfinal, List.map_append, hcomp]
      rfl
    have htail : (inputs.map (fun t => t.1)).tail = F'.map (fun t => t.1) ++ [z.1] := by
      rw [hkeys, hFc]
      simp
    refine ⟨hkeysfinal.trans htail.symm, ?_, ?_, ?_⟩
    · rw [hfinal]
      simpa using hF'len
    · intro p hp
      rw [hhead] at hp
      cases hp
      rw [hkeysfinal]
      intro hmem
      have hndF2 : (f0.1 :: F'.map (fun t => t.1)).Nodup := by
        have h0 := hndF
        rw [hFc] at h0
        simpa using h0
      have hzF2 : z.1 ∉ f0.1 :: F'.map (fun t => t.1) := by
        have h0 := hzF
        rw [hFc] at h0
        simpa using h0
      rcases List.mem_append.mp hmem with hmem | hmem
      · exact (List.nodup_cons.mp hndF2).1 hmem
      · have hz1 : f0.1 = z.1 := by simpa using hmem
        exact hzF2 (hz1 ▸ List.mem_cons_self _ _)
    · intro i
      by_cases hi : i ≤ CACHE_MAX_SIZE
      · rw [insertAll_take_le inputs hnd i hi]
        simp only [List.length_map, List.length_take]
        omega
      · have htakeall : inputs.take i = inputs := by
          apply List.take_of_length_le
          omega
        rw [htakeall, hfinal]
        simpa using hF'len.le

theorem c6winputs_length : c6winputs.length = CACHE_MAX_SIZE + 1 := by
  simp [c6winputs]

theorem c6winputs_nodup : (c6winputs.map (fun t => t.1)).Nodup := by
  simp only [c6winputs, List.map_cons, List.map_map]
  refine List.nodup_cons.mpr ⟨?_, ?_⟩
  · intro hmem
    rcases List.mem_map.mp hmem with ⟨i, _, hi⟩
    have hd := congrArg (fun s => s.data.length) hi
    simp at hd
  · exact (List.nodup_range _).map (fun i j h => repKey_inj 2 h)

theorem c6winputs_head : ∀ p, c6winputs.head? = some p → p.1 ≠ "" := by
  intro p hp
  rw [c6winputs] at hp
  simp only [List.head?_cons, Option.some.injEq] at hp
  rw [← hp]
  decide

theorem C6_witness :
    (insertAll c6winputs []).map Prod.fst = (c6winputs.map (fun t => t.1)).tail ∧
    (insertAll c6winputs []).length = CACHE_MAX_SIZE ∧
    (∀ p, c6winputs.head? = some p → p.1 ∉ (insertAll c6winputs []).map Prod.fst) :=
  ⟨(C6_cache_bound c6winputs c6winputs_length c6winputs_nodup c6winputs_head).1,
    (C6_cache_bound c6winputs c6winputs_length c6winputs_nodup c6winputs_head).2.1,
    (C6_cache_bound c6winputs c6winputs_length c6winputs_nodup c6winputs_head).2.2.1⟩

theorem c6b_split : c6binputs = c6bF ++ [c6bz] := by
  rw [c6binputs, c6bF, c6bz, show (CACHE_MAX_SIZE : Nat) = 999 + 1 from rfl,
    List.range_succ]
  simp

theorem c6binputs_nodup : (c6binputs.map (fun t => t.1)).Nodup := by
  simp only [c6binputs, List.map_cons, List.map_map]
  refine List.nodup_cons.mpr ⟨?_, ?_⟩
  · intro hmem
    rcases List.mem_map.mp hmem with ⟨i, _, hi⟩
    have hd := congrArg (fun s => s.data.length) hi
    simp at hd
  · exact (List.nodup_range _).map (fun i j h => repKey_inj 1 h)

/-- C6 as frozen is false on the code: inserting these 1001 distinct keys
(the first being the empty string) leaves 1001 entries — exceeding the
capacity bound — and the first-inserted key is still present, because the
truthiness guard `if (oldestKey)` skips eviction when the oldest key is the
empty string. -/
theorem C6_cex :
    c6binputs.length = CACHE_MAX_SIZE + 1 ∧
    (c6binputs.map (fun t => t.1)).Nodup ∧
    c6binputs.head? = some ("", true, 0) ∧
    (insertAll c6binputs []).length = CACHE_MAX_SIZE + 1 ∧
    "" ∈ (insertAll c6binputs []).map Prod.fst := by
  have hkeys : c6binputs.map (fun t => t.1) = (c6bF.map (fun t => t.1)) ++ [c6bz.1] := by
    rw [c6b_split]
    simp
  have hnd := c6binputs_nodup
  rw [hkeys] at hnd
  have hndF : (c6bF.map (fun t => t.1)).Nodup := hnd.of_append_left
  have hzF : c6bz.1 ∉ c6bF.map (fun t => t.1) := fun hmem =>
    List.disjoint_of_nodup_append hnd hmem (by simp)
  have hCF : insertAll c6bF [] = c6bF.map (fun t => (t.1, ⟨t.2.1, t.2.2⟩)) := by
    apply insertAll_fresh c6bF [] (by simp) hndF
    simp [c6bF, CACHE_MAX_SIZE]
  have hcomp : (c6bF.map (fun t => (t.1, (⟨t.2.1, t.2.2⟩ : CacheEntry)))).map Prod.fst
      = c6bF.map (fun t => t.1) := by
    rw [List.map_map]
    rfl
  have hstep : insertAll c6binputs [] =
      setCachedPermission c6bz.2.2 c6bz.1 c6bz.2.1
        (c6bF.map (fun t => (t.1, ⟨t.2.1, t.2.2⟩))) := by
    rw [c6b_split, insertAll_append, hCF]
    simp only [insertAll, List.foldl_cons, List.foldl_nil]
  have hemp : setCachedPermission c6bz.2.2 c6bz.1 c6bz.2.1
      (c6bF.map (fun t => (t.1, ⟨t.2.1, t.2.2⟩))) =
      mapSet (c6bF.map (fun t => (t.1, ⟨t.2.1, t.2.2⟩))) c6bz.1 ⟨c6bz.2.1, c6bz.2.2⟩ := by
    rw [show c6bF = ("", true, 0) ::
        (List.range 999).map (fun i => (String.mk (List.replicate (i + 1) 'a'), true, 0))
      from rfl, List.map_cons]
    exact setCached_cap_emptyKey _ _ _ _ _ (by simp [CACHE_MAX_SIZE]) rfl
  have hzF' : c6bz.1 ∉ (c6bF.map (fun t => (t.1, (⟨t.2.1, t.2.2⟩ : CacheEntry)))).map Prod.fst := by
    rw [hcomp]
    exact hzF
  have hfinal : insertAll c6binputs [] =
      c6bF.map (fun t => (t.1, ⟨t.2.1, t.2.2⟩)) ++ [(c6bz.1, ⟨c6bz.2.1, c6bz.2.2⟩)] := by
    rw [hstep, hemp, mapSet_fresh _ _ _ hzF']
  refine ⟨by simp [c6binputs], c6binputs_nodup, rfl, ?_, ?_⟩
  · rw [hfinal]
    simp [c6bF, CACHE_MAX_SIZE]
  · rw [hfinal, List.map_append, hcomp]
    apply List.mem_append.mpr
    left
    rw [show c6bF = ("", true, 0) ::
        (List.range 999).map (fun i => (String.mk (List.replicate (i + 1) 'a'), true, 0))
      from rfl, List.map_cons]
    exact List.mem_cons_self _ _

/-- C10: `checkPermissionSync` neither reads nor writes the shared
permission cache: the source body never references `permissionCache`, so
its state-threaded form leaves any cache state unchanged and its verdict
does not depend on the cache state (stale entries included). -/
theorem C10_sync_cache_frame (eng : RegexEng) (rule : PValue) (held : List String)
    (c c' : Cache) :
    (checkPermissionSyncSt eng rule held c).2 = c ∧
    (checkPermissionSyncSt eng rule held c).1 = (checkPermissionSyncSt eng rule held c').1 ∧
    (checkPermissionSyncSt eng rule held c).1 = checkPermissionSync eng rule held :=
  ⟨rfl, rfl, rfl⟩

end VNP
